import Mathlib

/-!
Verification of the `rust-graph` adjacency-list graph library.

The embedding follows the source files `adjacency_list_graph.rs`,
`graph.rs`, `weighted_graph.rs` and `searchable_graph.rs`.  Keys are the
dense `usize` indices the adjacency-list engine uses, modelled as `Nat`;
node values `V` and edge weights `W` stay generic.  Iterators over edge
lists are modelled by the list of items they yield in forward order, and
reverse (`next_back`) iteration by reversing that list.
-/

namespace RustGraph

/-- A directed edge of the adjacency list: a destination key and a weight
(struct `AdjacencyListEdge` in `adjacency_list_graph.rs`). -/
structure AdjacencyListEdge (W : Type) : Type where
  destination : Nat
  weight : W
deriving DecidableEq

/-- The adjacency-list engine (struct `AdjacencyListGraph`): dense node
storage plus one edge list per node. -/
structure AdjacencyListGraph (V W : Type) : Type where
  nodes : List V
  edges : List (List (AdjacencyListEdge W))
deriving DecidableEq

/-- The zero-size "no weight" sentinel (struct `NoWeight` in
`weighted_graph.rs`); its `Zero` impl returns the unique value. -/
structure NoWeight : Type where
deriving DecidableEq

instance : Zero NoWeight := ⟨{}⟩

variable {V W : Type}

/-- `AdjacencyListGraph::new`: the edge store starts with one empty list per
node (`vec![vec![]; nodes.len()]`). -/
def new (nodes : List V) : AdjacencyListGraph V W :=
  { nodes := nodes, edges := List.replicate nodes.length [] }

/-- `Graph::insert` for the engine: push the value and a fresh empty edge
list, and return the new key `nodes.len() - 1`. -/
def insert (g : AdjacencyListGraph V W) (value : V) :
    AdjacencyListGraph V W × Nat :=
  let nodes := g.nodes ++ [value]
  ({ nodes := nodes, edges := g.edges ++ [[]] }, nodes.length - 1)

/-- `Graph::remove` for the engine: reject an out-of-range index, otherwise
delete the node and its edge list at that index (both stores compact,
shifting higher indices down) and return the removed value. -/
def remove (g : AdjacencyListGraph V W) (key : Nat) :
    Option V × AdjacencyListGraph V W :=
  if g.nodes.length ≤ key then
    (none, g)
  else
    (g.nodes[key]?,
      { nodes := g.nodes.eraseIdx key, edges := g.edges.eraseIdx key })

/-- `Graph::add_connection` for the engine: if `source` indexes an edge
list, append an edge to `destination` with weight `W::zero()` and return
`true`; otherwise return `false`.  The destination is not validated. -/
def add_connection [Zero W] (g : AdjacencyListGraph V W)
    (source destination : Nat) : Bool × AdjacencyListGraph V W :=
  match g.edges[source]? with
  | none => (false, g)
  | some l =>
    (true,
      { g with
        edges := g.edges.set source (l ++ [⟨destination, (0 : W)⟩]) })

/-- `Graph::remove_connection` for the engine: remove the first edge of
`source`'s list whose destination matches, if any. -/
def remove_connection (g : AdjacencyListGraph V W)
    (source destination : Nat) : Bool × AdjacencyListGraph V W :=
  match g.edges[source]? with
  | none => (false, g)
  | some l =>
    match l.findIdx? (fun e => e.destination == destination) with
    | none => (false, g)
    | some i =>
      (true, { g with edges := g.edges.set source (l.eraseIdx i) })

/-- `Graph::get_value` for the engine: the node value at the key, if in
range. -/
def get_value (g : AdjacencyListGraph V W) (key : Nat) : Option V :=
  g.nodes[key]?

/-- `Graph::get_edges` for the engine: the destination keys of the key's
edge list, in stored (insertion) order — the items yielded by
`EdgeDestinationIterator`. -/
def get_edges (g : AdjacencyListGraph V W) (key : Nat) : Option (List Nat) :=
  (g.edges[key]?).map (fun l => l.map (fun e => e.destination))

/-- `Graph::get` for the engine: the node value together with its edge
iterator; the node store is consulted first, then the edge store. -/
def get (g : AdjacencyListGraph V W) (key : Nat) : Option (V × List Nat) :=
  match g.nodes[key]? with
  | none => none
  | some node =>
    match g.edges[key]? with
    | none => none
    | some l => some (node, l.map (fun e => e.destination))

/-- `WeightedGraph::add_weighted_connection` for the engine: like
`add_connection` but storing the given weight. -/
def add_weighted_connection (g : AdjacencyListGraph V W)
    (source destination : Nat) (weight : W) : Bool × AdjacencyListGraph V W :=
  match g.edges[source]? with
  | none => (false, g)
  | some l =>
    (true,
      { g with edges := g.edges.set source (l ++ [⟨destination, weight⟩]) })

/-- `WeightedGraph::get_weighted_edges` for the engine: the
`(destination, weight)` pairs of the key's edge list in stored order. -/
def get_weighted_edges (g : AdjacencyListGraph V W) (key : Nat) :
    Option (List (Nat × W)) :=
  (g.edges[key]?).map (fun l => l.map (fun e => (e.destination, e.weight)))

/-- `WeightedGraph::get_weighted` for the engine. -/
def get_weighted (g : AdjacencyListGraph V W) (key : Nat) :
    Option (V × List (Nat × W)) :=
  match g.nodes[key]? with
  | none => none
  | some node =>
    match g.edges[key]? with
    | none => none
    | some l => some (node, l.map (fun e => (e.destination, e.weight)))

/-- Reverse (`next_back`) iteration of a double-ended iterator modelled as
the list of items it yields: the forward items in reverse order. -/
def iterate_back {α : Type} (items : List α) : List α :=
  items.reverse

/-- The node/edge store length invariant of the engine. -/
def WellFormed (g : AdjacencyListGraph V W) : Prop :=
  g.edges.length = g.nodes.length

instance (g : AdjacencyListGraph V W) : Decidable (WellFormed g) :=
  inferInstanceAs (Decidable (g.edges.length = g.nodes.length))

/-- The backward-linked path chain used during search (struct `LinkedNode`
in `searchable_graph.rs`): `root v` is `LinkedNode::new(v)` (no parent) and
`link v p` is a chain node whose `parent` field holds `p`. -/
inductive LinkedNode (T : Type) : Type where
  | root (value : T)
  | link (value : T) (parent : LinkedNode T)
deriving DecidableEq

/-- The `value` field of a chain node. -/
def LinkedNode.value {T : Type} : LinkedNode T → T
  | .root v => v
  | .link v _ => v

/-- The backward walk of `LinkedNode::flatten`: the chain values from this
node back to the source. -/
def LinkedNode.flattenAux {T : Type} : LinkedNode T → List T
  | .root v => [v]
  | .link v p => v :: p.flattenAux

/-- `LinkedNode::flatten`: the walked chain reversed into
source-to-destination order. -/
def LinkedNode.flatten {T : Type} (n : LinkedNode T) : List T :=
  n.flattenAux.reverse

/-- Number of keys on a chain. -/
def LinkedNode.chainLength {T : Type} (n : LinkedNode T) : Nat :=
  n.flattenAux.length

/-- The destination keys reachable in one step from `k` (empty when
`get_edges` finds nothing, as for a dangling key). -/
def successors (g : AdjacencyListGraph V W) (k : Nat) : List Nat :=
  (get_edges g k).getD []

/-- One directed edge step of the graph. -/
def IsStep (g : AdjacencyListGraph V W) (a b : Nat) : Prop :=
  b ∈ successors g a

/-- `p` is a directed path from `s` to `d` along the graph's edges. -/
def IsPath (g : AdjacencyListGraph V W) (p : List Nat) (s d : Nat) : Prop :=
  p.head? = some s ∧ p.getLast? = some d ∧ List.Chain' (IsStep g) p

instance (g : AdjacencyListGraph V W) : DecidableRel (IsStep g) :=
  fun a b => inferInstanceAs (Decidable (b ∈ successors g a))

/-- Executable edge-by-edge path check, used to decide `IsPath`. -/
def chainCheck (g : AdjacencyListGraph V W) : List Nat → Bool
  | [] => true
  | [_] => true
  | a :: b :: t => (decide (b ∈ successors g a) && chainCheck g (b :: t))

theorem chainCheck_iff (g : AdjacencyListGraph V W) (p : List Nat) :
    chainCheck g p = true ↔ List.Chain' (IsStep g) p := by
  induction p with
  | nil => simp [chainCheck]
  | cons a t ih =>
    cases t with
    | nil => simp [chainCheck]
    | cons b t' =>
      rw [chainCheck, List.chain'_cons, Bool.and_eq_true, decide_eq_true_iff]
      exact and_congr Iff.rfl ih

instance (g : AdjacencyListGraph V W) (p : List Nat) (s d : Nat) :
    Decidable (IsPath g p s d) :=
  decidable_of_iff
    (p.head? = some s ∧ p.getLast? = some d ∧ chainCheck g p = true)
    (and_congr Iff.rfl (and_congr Iff.rfl (chainCheck_iff g p)))

/-- Every key a search starting at `source` can ever stack or enqueue: the
source itself plus every edge destination stored in the graph. -/
def keyUniverse (g : AdjacencyListGraph V W) (source : Nat) : List Nat :=
  source :: (g.edges.flatten.map (fun e => e.destination))

/-- Termination measure ingredient: how many universe keys are unvisited. -/
def unvisitedCount (U visited : List Nat) : Nat :=
  (U.toFinset \ visited.toFinset).card

theorem unvisitedCount_append_le (U visited w : List Nat) :
    unvisitedCount U (visited ++ w) ≤ unvisitedCount U visited := by
  apply Finset.card_le_card
  apply Finset.sdiff_subset_sdiff le_rfl
  intro a ha
  simp only [List.mem_toFinset] at ha ⊢
  exact List.mem_append_left _ ha

theorem unvisitedCount_append_lt (U visited : List Nat) (v : Nat)
    (hvU : v ∈ U) (hv : v ∉ visited) :
    unvisitedCount U (visited ++ [v]) < unvisitedCount U visited := by
  apply Finset.card_lt_card
  rw [Finset.ssubset_def]
  constructor
  · apply Finset.sdiff_subset_sdiff le_rfl
    intro a ha
    simp only [List.mem_toFinset] at ha ⊢
    exact List.mem_append_left _ ha
  · intro hsub
    have hvmem : v ∈ U.toFinset \ visited.toFinset := by
      simp [List.mem_toFinset, hvU, hv]
    have := hsub hvmem
    simp [List.mem_toFinset] at this

theorem mem_of_get_edges {g : AdjacencyListGraph V W} {k : Nat}
    {es : List Nat} {U : List Nat}
    (he : ∀ l ∈ g.edges, ∀ e ∈ l, e.destination ∈ U)
    (hg : get_edges g k = some es) : ∀ e ∈ es, e ∈ U := by
  intro e hee
  unfold get_edges at hg
  rcases Option.map_eq_some'.mp hg with ⟨l, hl, rfl⟩
  rcases List.mem_map.mp hee with ⟨ed, hed, rfl⟩
  exact he l (List.getElem?_mem hl) ed hed

/-- The DFS expansion of a popped chain node: iterate its outgoing edges in
reverse order (`for edge in edges.rev()`), pushing each destination as a
child chain node; the first-stored edge therefore ends on top. -/
def pushChildren (node : LinkedNode Nat) (es : List Nat)
    (stack : List (LinkedNode Nat)) : List (LinkedNode Nat) :=
  es.foldr (fun e st => LinkedNode.link e node :: st) stack

theorem pushChildren_eq_map_append (node : LinkedNode Nat) (es : List Nat)
    (stack : List (LinkedNode Nat)) :
    pushChildren node es stack =
      es.map (fun e => LinkedNode.link e node) ++ stack := by
  induction es with
  | nil => rfl
  | cons a t ih => simpa [pushChildren] using ih

/-- The loop of `find_path_dfs` (`searchable_graph.rs`): pop the top chain
node; discard it if its key is already visited; otherwise mark it visited,
return the flattened chain when it is the destination, and otherwise push
its out-edges in reverse stored order.  The universe `U` and the two
membership hypotheses only serve the termination measure. -/
def dfsLoop (g : AdjacencyListGraph V W) (destination : Nat) (U : List Nat)
    (visited : List Nat) (stack : List (LinkedNode Nat))
    (hs : ∀ n ∈ stack, LinkedNode.value n ∈ U)
    (he : ∀ l ∈ g.edges, ∀ e ∈ l, e.destination ∈ U) : Option (List Nat) :=
  match stack with
  | [] => none
  | node :: rest =>
    if hv : node.value ∈ visited then
      dfsLoop g destination U visited rest
        (fun n hn => hs n (List.mem_cons_of_mem _ hn)) he
    else if node.value = destination then
      some node.flatten
    else
      match hg : get_edges g node.value with
      | none =>
        dfsLoop g destination U (visited ++ [node.value]) rest
          (fun n hn => hs n (List.mem_cons_of_mem _ hn)) he
      | some es =>
        dfsLoop g destination U (visited ++ [node.value])
          (pushChildren node es rest)
          (by
            intro n hn
            rw [pushChildren_eq_map_append] at hn
            rcases List.mem_append.mp hn with h1 | h2
            · rcases List.mem_map.mp h1 with ⟨e, hee, rfl⟩
              exact mem_of_get_edges he hg e hee
            · exact hs n (List.mem_cons_of_mem _ h2)) he
termination_by (unvisitedCount U visited, stack.length)
decreasing_by
  · exact Prod.Lex.right _ (Nat.lt_succ_self _)
  · exact Prod.Lex.left _ _
      (unvisitedCount_append_lt U visited node.value
        (hs node (List.mem_cons_self _ _)) hv)
  · exact Prod.Lex.left _ _
      (unvisitedCount_append_lt U visited node.value
        (hs node (List.mem_cons_self _ _)) hv)

/-- The inner edge loop of `find_path_bfs`: for each out-edge in stored
order, skip already-visited destinations, otherwise mark the destination
visited and enqueue it as a child chain node (eager marking at enqueue
time). -/
def bfsEnqueue (node : LinkedNode Nat) (es : List Nat)
    (visited : List Nat) (queue : List (LinkedNode Nat)) :
    List Nat × List (LinkedNode Nat) :=
  match es with
  | [] => (visited, queue)
  | e :: rest =>
    if e ∈ visited then
      bfsEnqueue node rest visited queue
    else
      bfsEnqueue node rest (visited ++ [e])
        (queue ++ [LinkedNode.link e node])

theorem bfsEnqueue_progress (U : List Nat) (node : LinkedNode Nat)
    (es visited : List Nat) (queue : List (LinkedNode Nat))
    (hes : ∀ e ∈ es, e ∈ U) :
    ((bfsEnqueue node es visited queue).1 = visited ∧
      (bfsEnqueue node es visited queue).2 = queue) ∨
    unvisitedCount U (bfsEnqueue node es visited queue).1 <
      unvisitedCount U visited := by
  induction es generalizing visited queue with
  | nil => exact Or.inl ⟨rfl, rfl⟩
  | cons e rest ih =>
    by_cases hev : e ∈ visited
    · simpa [bfsEnqueue, hev] using
        ih visited queue (fun x hx => hes x (List.mem_cons_of_mem _ hx))
    · right
      have hlt : unvisitedCount U (visited ++ [e]) < unvisitedCount U visited :=
        unvisitedCount_append_lt U visited e
          (hes e (List.mem_cons_self _ _)) hev
      have hrec := ih (visited ++ [e]) (queue ++ [LinkedNode.link e node])
        (fun x hx => hes x (List.mem_cons_of_mem _ hx))
      simp only [bfsEnqueue, hev, if_false] at hrec ⊢
      rcases hrec with ⟨h1, _⟩ | hlt2
      · rw [h1]; exact hlt
      · exact hlt2.trans hlt

/-- The loop of `find_path_bfs` (`searchable_graph.rs`): dequeue the front
chain node, return its flattened chain when it is the destination, and
otherwise enqueue its unvisited out-edge destinations in stored order. -/
def bfsLoop (g : AdjacencyListGraph V W) (destination : Nat) (U : List Nat)
    (visited : List Nat) (queue : List (LinkedNode Nat))
    (he : ∀ l ∈ g.edges, ∀ e ∈ l, e.destination ∈ U) : Option (List Nat) :=
  match queue with
  | [] => none
  | node :: rest =>
    if node.value = destination then
      some node.flatten
    else
      match hg : get_edges g node.value with
      | none => bfsLoop g destination U visited rest he
      | some es =>
        bfsLoop g destination U (bfsEnqueue node es visited rest).1
          (bfsEnqueue node es visited rest).2 he
termination_by (unvisitedCount U visited, queue.length)
decreasing_by
  · exact Prod.Lex.right _ (Nat.lt_succ_self _)
  · rcases bfsEnqueue_progress U node es visited rest
      (mem_of_get_edges he hg) with ⟨h1, h2⟩ | hlt
    · rw [h1, h2]
      exact Prod.Lex.right _ (Nat.lt_succ_self _)
    · exact Prod.Lex.left _ _ hlt

/-- `SearchableGraph::find_path_dfs`: explicit-stack depth-first search with
lazy visited marking (checked at pop time), seeded with the source chain
node. -/
def find_path_dfs (g : AdjacencyListGraph V W) (source destination : Nat) :
    Option (List Nat) :=
  dfsLoop g destination (keyUniverse g source) [] [LinkedNode.root source]
    (by
      intro n hn
      rcases List.mem_singleton.mp hn with rfl
      exact List.mem_cons_self _ _)
    (by
      intro l hl e hee
      exact List.mem_cons_of_mem _
        (List.mem_map_of_mem _ (List.mem_flatten_of_mem hl hee)))

/-- `SearchableGraph::find_path_bfs`: FIFO-queue breadth-first search with
eager visited marking (at enqueue time; the source itself is never
pre-marked), seeded with the source chain node. -/
def find_path_bfs (g : AdjacencyListGraph V W) (source destination : Nat) :
    Option (List Nat) :=
  bfsLoop g destination (keyUniverse g source) [] [LinkedNode.root source]
    (by
      intro l hl e hee
      exact List.mem_cons_of_mem _
        (List.mem_map_of_mem _ (List.mem_flatten_of_mem hl hee)))

theorem dfsChildrenMem {g : AdjacencyListGraph V W} {U : List Nat}
    {node : LinkedNode Nat} {rest : List (LinkedNode Nat)} {es : List Nat}
    (hs : ∀ n ∈ node :: rest, LinkedNode.value n ∈ U)
    (he : ∀ l ∈ g.edges, ∀ e ∈ l, e.destination ∈ U)
    (hg : get_edges g node.value = some es) :
    ∀ n ∈ pushChildren node es rest, LinkedNode.value n ∈ U := by
  intro n hn
  rw [pushChildren_eq_map_append] at hn
  rcases List.mem_append.mp hn with h1 | h2
  · rcases List.mem_map.mp h1 with ⟨e, hee, rfl⟩
    exact mem_of_get_edges he hg e hee
  · exact hs n (List.mem_cons_of_mem _ h2)

theorem dfsLoop_nil (g : AdjacencyListGraph V W) (destination : Nat)
    (U visited : List Nat) (hs) (he) :
    dfsLoop g destination U visited [] hs he = none := by
  rw [dfsLoop.eq_def]

theorem dfsLoop_visited {g : AdjacencyListGraph V W} {destination : Nat}
    {U visited : List Nat} {node : LinkedNode Nat}
    {rest : List (LinkedNode Nat)} (hs) (he)
    (hv : node.value ∈ visited) :
    dfsLoop g destination U visited (node :: rest) hs he =
      dfsLoop g destination U visited rest
        (fun n hn => hs n (List.mem_cons_of_mem _ hn)) he := by
  rw [dfsLoop.eq_def]
  simp only [dif_pos hv]

theorem dfsLoop_found {g : AdjacencyListGraph V W} {destination : Nat}
    {U visited : List Nat} {node : LinkedNode Nat}
    {rest : List (LinkedNode Nat)} (hs) (he)
    (hv : node.value ∉ visited) (hd : node.value = destination) :
    dfsLoop g destination U visited (node :: rest) hs he =
      some node.flatten := by
  rw [dfsLoop.eq_def]
  simp only [dif_neg hv, if_pos hd]

theorem dfsLoop_deadend {g : AdjacencyListGraph V W} {destination : Nat}
    {U visited : List Nat} {node : LinkedNode Nat}
    {rest : List (LinkedNode Nat)} (hs) (he)
    (hv : node.value ∉ visited) (hd : node.value ≠ destination)
    (hg : get_edges g node.value = none) :
    dfsLoop g destination U visited (node :: rest) hs he =
      dfsLoop g destination U (visited ++ [node.value]) rest
        (fun n hn => hs n (List.mem_cons_of_mem _ hn)) he := by
  rw [dfsLoop.eq_def]
  simp only [dif_neg hv, if_neg hd]
  split
  · rfl
  · rename_i es heq
    rw [hg] at heq
    exact absurd heq (by simp)

theorem dfsLoop_expand {g : AdjacencyListGraph V W} {destination : Nat}
    {U visited : List Nat} {node : LinkedNode Nat}
    {rest : List (LinkedNode Nat)} {es : List Nat} (hs) (he)
    (hv : node.value ∉ visited) (hd : node.value ≠ destination)
    (hg : get_edges g node.value = some es) :
    dfsLoop g destination U visited (node :: rest) hs he =
      dfsLoop g destination U (visited ++ [node.value])
        (pushChildren node es rest) (dfsChildrenMem hs he hg) he := by
  rw [dfsLoop.eq_def]
  simp only [dif_neg hv, if_neg hd]
  split
  · rename_i heq
    rw [hg] at heq
    exact absurd heq (by simp)
  · rename_i es' heq
    rw [hg] at heq
    cases heq
    rfl

theorem bfsLoop_nil (g : AdjacencyListGraph V W) (destination : Nat)
    (U visited : List Nat) (he) :
    bfsLoop g destination U visited [] he = none := by
  rw [bfsLoop.eq_def]

theorem bfsLoop_found {g : AdjacencyListGraph V W} {destination : Nat}
    {U visited : List Nat} {node : LinkedNode Nat}
    {rest : List (LinkedNode Nat)} (he)
    (hd : node.value = destination) :
    bfsLoop g destination U visited (node :: rest) he =
      some node.flatten := by
  rw [bfsLoop.eq_def]
  simp only [if_pos hd]

theorem bfsLoop_deadend {g : AdjacencyListGraph V W} {destination : Nat}
    {U visited : List Nat} {node : LinkedNode Nat}
    {rest : List (LinkedNode Nat)} (he)
    (hd : node.value ≠ destination)
    (hg : get_edges g node.value = none) :
    bfsLoop g destination U visited (node :: rest) he =
      bfsLoop g destination U visited rest he := by
  rw [bfsLoop.eq_def]
  simp only [if_neg hd]
  split
  · rfl
  · rename_i es heq
    rw [hg] at heq
    exact absurd heq (by simp)

theorem bfsLoop_expand {g : AdjacencyListGraph V W} {destination : Nat}
    {U visited : List Nat} {node : LinkedNode Nat}
    {rest : List (LinkedNode Nat)} {es : List Nat} (he)
    (hd : node.value ≠ destination)
    (hg : get_edges g node.value = some es) :
    bfsLoop g destination U visited (node :: rest) he =
      bfsLoop g destination U (bfsEnqueue node es visited rest).1
        (bfsEnqueue node es visited rest).2 he := by
  rw [bfsLoop.eq_def]
  simp only [if_neg hd]
  split
  · rename_i heq
    rw [hg] at heq
    exact absurd heq (by simp)
  · rename_i es' heq
    rw [hg] at heq
    cases heq
    rfl

/-- Fuel-indexed executable twin of `dfsLoop`, used only to evaluate
concrete searches: `some r` means the loop finished with result `r` within
the given fuel. -/
def dfsRun (g : AdjacencyListGraph V W) (destination : Nat) (fuel : Nat)
    (visited : List Nat) (stack : List (LinkedNode Nat)) :
    Option (Option (List Nat)) :=
  match fuel with
  | 0 => none
  | fuel + 1 =>
    match stack with
    | [] => some none
    | node :: rest =>
      if node.value ∈ visited then
        dfsRun g destination fuel visited rest
      else if node.value = destination then
        some (some node.flatten)
      else
        match get_edges g node.value with
        | none => dfsRun g destination fuel (visited ++ [node.value]) rest
        | some es =>
          dfsRun g destination fuel (visited ++ [node.value])
            (pushChildren node es rest)

theorem dfsRun_sound (g : AdjacencyListGraph V W) (destination : Nat)
    (U : List Nat) (fuel : Nat) :
    ∀ visited stack hs he r,
      dfsRun g destination fuel visited stack = some r →
      dfsLoop g destination U visited stack hs he = r := by
  induction fuel with
  | zero =>
    intro visited stack hs he r h
    simp [dfsRun] at h
  | succ fuel ih =>
    intro visited stack hs he r h
    match stack with
    | [] =>
      simp [dfsRun] at h
      rw [dfsLoop_nil, h]
    | node :: rest =>
      by_cases hv : node.value ∈ visited
      · rw [dfsLoop_visited hs he hv]
        exact ih _ _ _ he r (by simpa [dfsRun, hv] using h)
      · by_cases hd : node.value = destination
        · rw [dfsLoop_found hs he hv hd]
          simp only [dfsRun] at h
          rw [if_neg hv, if_pos hd] at h
          exact Option.some.inj h
        · match hg : get_edges g node.value with
          | none =>
            rw [dfsLoop_deadend hs he hv hd hg]
            exact ih _ _ _ he r (by simpa [dfsRun, hv, hd, hg] using h)
          | some es =>
            rw [dfsLoop_expand hs he hv hd hg]
            exact ih _ _ _ he r (by simpa [dfsRun, hv, hd, hg] using h)

/-- Fuel-indexed executable twin of `bfsLoop`. -/
def bfsRun (g : AdjacencyListGraph V W) (destination : Nat) (fuel : Nat)
    (visited : List Nat) (queue : List (LinkedNode Nat)) :
    Option (Option (List Nat)) :=
  match fuel with
  | 0 => none
  | fuel + 1 =>
    match queue with
    | [] => some none
    | node :: rest =>
      if node.value = destination then
        some (some node.flatten)
      else
        match get_edges g node.value with
        | none => bfsRun g destination fuel visited rest
        | some es =>
          bfsRun g destination fuel (bfsEnqueue node es visited rest).1
            (bfsEnqueue node es visited rest).2

theorem bfsRun_sound (g : AdjacencyListGraph V W) (destination : Nat)
    (U : List Nat) (fuel : Nat) :
    ∀ visited queue he r,
      bfsRun g destination fuel visited queue = some r →
      bfsLoop g destination U visited queue he = r := by
  induction fuel with
  | zero =>
    intro visited queue he r h
    simp [bfsRun] at h
  | succ fuel ih =>
    intro visited queue he r h
    match queue with
    | [] =>
      simp [bfsRun] at h
      rw [bfsLoop_nil, h]
    | node :: rest =>
      by_cases hd : node.value = destination
      · rw [bfsLoop_found he hd]
        simp [bfsRun, hd] at h
        rw [h]
      · match hg : get_edges g node.value with
        | none =>
          rw [bfsLoop_deadend he hd hg]
          exact ih _ _ he r (by simpa [bfsRun, hd, hg] using h)
        | some es =>
          rw [bfsLoop_expand he hd hg]
          exact ih _ _ he r (by simpa [bfsRun, hd, hg] using h)

theorem find_path_dfs_eval {g : AdjacencyListGraph V W}
    {source destination : Nat} (fuel : Nat) {r : Option (List Nat)}
    (h : dfsRun g destination fuel [] [LinkedNode.root source] = some r) :
    find_path_dfs g source destination = r :=
  dfsRun_sound g destination (keyUniverse g source) fuel _ _ _ _ r h

theorem find_path_bfs_eval {g : AdjacencyListGraph V W}
    {source destination : Nat} (fuel : Nat) {r : Option (List Nat)}
    (h : bfsRun g destination fuel [] [LinkedNode.root source] = some r) :
    find_path_bfs g source destination = r :=
  bfsRun_sound g destination (keyUniverse g source) fuel _ _ _ r h

/-- The four-node test graph of the spec and the repository's tests, with
edges 0→1, 0→2, 0→3, 1→2, 2→3, built through the public contract. -/
def testGraph : AdjacencyListGraph Nat NoWeight :=
  let g0 : AdjacencyListGraph Nat NoWeight := new [1, 2, 3, 4]
  let g1 := (add_connection g0 0 1).2
  let g2 := (add_connection g1 0 2).2
  let g3 := (add_connection g2 0 3).2
  let g4 := (add_connection g3 1 2).2
  (add_connection g4 2 3).2

/-- A two-node graph with a dangling edge 0→99 stored before the real edge
0→1. -/
def danglingGraph : AdjacencyListGraph Nat NoWeight :=
  let g0 : AdjacencyListGraph Nat NoWeight := new [1, 2]
  let g1 := (add_connection g0 0 99).2
  (add_connection g1 0 1).2

example : find_path_dfs testGraph 0 3 = some [0, 1, 2, 3] :=
  find_path_dfs_eval 20 rfl

example : find_path_bfs testGraph 0 3 = some [0, 3] :=
  find_path_bfs_eval 20 rfl

example : find_path_dfs danglingGraph 0 1 = some [0, 1] :=
  find_path_dfs_eval 20 rfl

example : find_path_bfs danglingGraph 0 1 = some [0, 1] :=
  find_path_bfs_eval 20 rfl

theorem flatten_root (v : Nat) : (LinkedNode.root v).flatten = [v] := rfl

theorem flatten_link (e : Nat) (n : LinkedNode Nat) :
    (LinkedNode.link e n).flatten = n.flatten ++ [e] := by
  simp [LinkedNode.flatten, LinkedNode.flattenAux]

theorem chainLength_eq_length_flatten (n : LinkedNode Nat) :
    n.chainLength = n.flatten.length := by
  simp [LinkedNode.chainLength, LinkedNode.flatten]

theorem chainLength_link (e : Nat) (n : LinkedNode Nat) :
    (LinkedNode.link e n).chainLength = n.chainLength + 1 := by
  simp [LinkedNode.chainLength, LinkedNode.flattenAux]

theorem one_le_chainLength (n : LinkedNode Nat) : 1 ≤ n.chainLength := by
  cases n <;> simp [LinkedNode.chainLength, LinkedNode.flattenAux]

/-- The chain node `n` flattens to a genuine graph path from `s` to its own
key. -/
def PathTo (g : AdjacencyListGraph V W) (s : Nat) (n : LinkedNode Nat) :
    Prop :=
  IsPath g n.flatten s n.value

theorem isPath_singleton (g : AdjacencyListGraph V W) (k : Nat) :
    IsPath g [k] k k :=
  ⟨rfl, rfl, List.chain'_singleton _⟩

theorem isPath_ne_nil {g : AdjacencyListGraph V W} {p : List Nat} {s d : Nat}
    (h : IsPath g p s d) : p ≠ [] := by
  intro hp
  rw [hp] at h
  exact Option.noConfusion h.1

theorem isPath_one_le_length {g : AdjacencyListGraph V W} {p : List Nat}
    {s d : Nat} (h : IsPath g p s d) : 1 ≤ p.length :=
  List.length_pos.mpr (isPath_ne_nil h)

theorem isPath_length_one {g : AdjacencyListGraph V W} {p : List Nat}
    {s d : Nat} (h : IsPath g p s d) (hl : p.length = 1) : s = d := by
  rcases List.length_eq_one.mp hl with ⟨x, rfl⟩
  rcases h with ⟨h1, h2, -⟩
  simp only [List.head?_cons, Option.some.injEq] at h1
  simp only [List.getLast?_singleton, Option.some.injEq] at h2
  rw [← h1, ← h2]

theorem isPath_two_le_length {g : AdjacencyListGraph V W} {p : List Nat}
    {s d : Nat} (h : IsPath g p s d) (hne : s ≠ d) : 2 ≤ p.length := by
  have h1 := isPath_one_le_length h
  rcases Nat.lt_or_ge p.length 2 with h2 | h2
  · interval_cases hl : p.length
    · exact absurd (isPath_length_one h hl) hne
  · exact h2

theorem isPath_snoc {g : AdjacencyListGraph V W} {p : List Nat} {s u : Nat}
    (h : IsPath g p s u) {v : Nat} (hv : v ∈ successors g u) :
    IsPath g (p ++ [v]) s v := by
  obtain ⟨h1, h2, h3⟩ := h
  refine ⟨?_, List.getLast?_concat _, ?_⟩
  · rw [List.head?_append, h1]
    rfl
  · rw [List.chain'_append]
    refine ⟨h3, List.chain'_singleton _, ?_⟩
    intro x hx y hy
    rw [h2] at hx
    cases hx
    simp only [List.head?_cons, Option.mem_def, Option.some.injEq] at hy
    cases hy
    exact hv

theorem isPath_snoc_inv {g : AdjacencyListGraph V W} {p : List Nat}
    {s k : Nat} (h : IsPath g p s k) (hl : 2 ≤ p.length) :
    ∃ q u, p = q ++ [k] ∧ IsPath g q s u ∧ k ∈ successors g u ∧
      p.length = q.length + 1 := by
  obtain ⟨h1, h2, h3⟩ := h
  have hne : p ≠ [] := by
    intro hp
    rw [hp] at h1
    exact Option.noConfusion h1
  have hdecomp := List.dropLast_append_getLast hne
  have hlast : p.getLast hne = k := by
    rw [List.getLast?_eq_getLast p hne] at h2
    exact Option.some.inj h2
  have hqne : p.dropLast ≠ [] := by
    intro hq
    have := congrArg List.length hdecomp
    simp [hq] at this
    omega
  refine ⟨p.dropLast, p.dropLast.getLast hqne, ?_, ⟨?_, ?_, ?_⟩, ?_, ?_⟩
  · rw [← hlast, hdecomp]
  · rw [← hdecomp, List.head?_append] at h1
    rcases Option.or_eq_some.mp h1 with hh | ⟨hh, _⟩
    · rw [hh]
    · exact absurd (List.head?_eq_none_iff.mp hh) hqne
  · exact List.getLast?_eq_getLast _ hqne
  · rw [← hdecomp, List.chain'_append] at h3
    exact h3.1
  · have h3' := h3
    rw [← hdecomp, List.chain'_append] at h3'
    have := h3'.2.2 (p.dropLast.getLast hqne)
      (by rw [List.getLast?_eq_getLast _ hqne]; rfl) (p.getLast hne)
      (by rfl)
    rw [hlast] at this
    exact this
  · conv_lhs => rw [← hdecomp]
    simp

theorem pathTo_root (g : AdjacencyListGraph V W) (s : Nat) :
    PathTo g s (LinkedNode.root s) :=
  isPath_singleton g s

theorem pathTo_link {g : AdjacencyListGraph V W} {s : Nat}
    {n : LinkedNode Nat} (h : PathTo g s n) {e : Nat}
    (he : e ∈ successors g n.value) : PathTo g s (LinkedNode.link e n) := by
  unfold PathTo at h ⊢
  rw [flatten_link]
  exact isPath_snoc h he

theorem get_edges_successors {g : AdjacencyListGraph V W} {k : Nat}
    {es : List Nat} (hg : get_edges g k = some es) : successors g k = es := by
  simp [successors, hg]

theorem get_edges_none_successors {g : AdjacencyListGraph V W} {k : Nat}
    (hg : get_edges g k = none) : successors g k = [] := by
  simp [successors, hg]

/-- Soundness of the DFS loop: whenever every stacked chain flattens to a
path from `s`, a returned list is a path from `s` to the destination. -/
theorem dfsLoop_sound (g : AdjacencyListGraph V W) (destination : Nat)
    (U : List Nat) (s : Nat) :
    ∀ visited stack hs he, (∀ n ∈ stack, PathTo g s n) →
      ∀ p, dfsLoop g destination U visited stack hs he = some p →
        IsPath g p s destination := by
  intro visited stack hs he
  induction visited, stack, hs, he using dfsLoop.induct g destination U with
  | case1 visited he hs _ =>
    intro _ p hr
    rw [dfsLoop_nil] at hr
    exact Option.noConfusion hr
  | case2 visited he node rest hs hv _ ih =>
    intro hp p hr
    rw [dfsLoop_visited hs he hv] at hr
    exact ih (fun n hn => hp n (List.mem_cons_of_mem _ hn)) p hr
  | case3 visited he node rest hs hv hd _ =>
    intro hp p hr
    rw [dfsLoop_found hs he hv hd] at hr
    cases hr
    rw [← hd]
    exact hp node (List.mem_cons_self _ _)
  | case4 visited he node rest hs hv hd hg _ ih =>
    intro hp p hr
    rw [dfsLoop_deadend hs he hv hd hg] at hr
    exact ih (fun n hn => hp n (List.mem_cons_of_mem _ hn)) p hr
  | case5 visited he node rest hs hv hd es hg _ ih =>
    intro hp p hr
    rw [dfsLoop_expand hs he hv hd hg] at hr
    refine ih ?_ p hr
    intro n hn
    rw [pushChildren_eq_map_append] at hn
    rcases List.mem_append.mp hn with h1 | h2
    · rcases List.mem_map.mp h1 with ⟨e, hee, rfl⟩
      refine pathTo_link (hp node (List.mem_cons_self _ _)) ?_
      rw [get_edges_successors hg]
      exact hee
    · exact hp n (List.mem_cons_of_mem _ h2)

/-- Structural description of the BFS edge loop: it appends to the visited
set exactly the previously unvisited edge destinations `w`, in stored
order and deduplicated, and enqueues exactly the corresponding child chain
nodes; afterwards every edge destination is visited. -/
theorem bfsEnqueue_spec (node : LinkedNode Nat) :
    ∀ (es visited : List Nat) (queue : List (LinkedNode Nat)),
      ∃ w : List Nat,
        (bfsEnqueue node es visited queue).1 = visited ++ w ∧
        (bfsEnqueue node es visited queue).2 =
          queue ++ w.map (fun e => LinkedNode.link e node) ∧
        (∀ x ∈ w, x ∈ es ∧ x ∉ visited) ∧
        (∀ x ∈ es, x ∈ visited ++ w) := by
  intro es
  induction es with
  | nil =>
    intro visited queue
    exact ⟨[], by simp [bfsEnqueue]⟩
  | cons e rest ih =>
    intro visited queue
    by_cases hev : e ∈ visited
    · obtain ⟨w, h1, h2, h3, h4⟩ := ih visited queue
      refine ⟨w, ?_, ?_, ?_, ?_⟩
      · simpa [bfsEnqueue, hev] using h1
      · simpa [bfsEnqueue, hev] using h2
      · exact fun x hx => ⟨List.mem_cons_of_mem _ (h3 x hx).1, (h3 x hx).2⟩
      · intro x hx
        rcases List.mem_cons.mp hx with rfl | hx'
        · exact List.mem_append_left _ hev
        · exact h4 x hx'
    · obtain ⟨w, h1, h2, h3, h4⟩ :=
        ih (visited ++ [e]) (queue ++ [LinkedNode.link e node])
      refine ⟨e :: w, ?_, ?_, ?_, ?_⟩
      · rw [bfsEnqueue]
        simp only [if_neg hev]
        rw [h1, List.append_assoc]
        rfl
      · rw [bfsEnqueue]
        simp only [if_neg hev]
        rw [h2, List.append_assoc]
        rfl
      · intro x hx
        rcases List.mem_cons.mp hx with rfl | hx'
        · exact ⟨List.mem_cons_self _ _, hev⟩
        · obtain ⟨hxr, hxv⟩ := h3 x hx'
          refine ⟨List.mem_cons_of_mem _ hxr, fun hc => hxv ?_⟩
          exact List.mem_append_left _ hc
      · intro x hx
        rcases List.mem_cons.mp hx with rfl | hx'
        · simp
        · have := h4 x hx'
          simpa [List.append_assoc] using this

/-- Soundness of the BFS loop: whenever every queued chain flattens to a
path from `s`, a returned list is a path from `s` to the destination. -/
theorem bfsLoop_sound (g : AdjacencyListGraph V W) (destination : Nat)
    (U : List Nat) (s : Nat) :
    ∀ visited queue he, (∀ n ∈ queue, PathTo g s n) →
      ∀ p, bfsLoop g destination U visited queue he = some p →
        IsPath g p s destination := by
  intro visited queue he
  induction visited, queue, he using bfsLoop.induct g destination U with
  | case1 visited he' =>
    intro _ p hr
    rw [bfsLoop_nil] at hr
    exact Option.noConfusion hr
  | case2 visited he' node rest hd =>
    intro hp p hr
    rw [bfsLoop_found he' hd] at hr
    cases hr
    rw [← hd]
    exact hp node (List.mem_cons_self _ _)
  | case3 visited he' node rest hd hg ih =>
    intro hp p hr
    rw [bfsLoop_deadend he' hd hg] at hr
    exact ih (fun n hn => hp n (List.mem_cons_of_mem _ hn)) p hr
  | case4 visited he' node rest hd es hg ih =>
    intro hp p hr
    rw [bfsLoop_expand he' hd hg] at hr
    refine ih ?_ p hr
    obtain ⟨w, h1, h2, h3, h4⟩ := bfsEnqueue_spec node es visited rest
    rw [h2]
    intro n hn
    rcases List.mem_append.mp hn with hn1 | hn2
    · exact hp n (List.mem_cons_of_mem _ hn1)
    · rcases List.mem_map.mp hn2 with ⟨e, hew, rfl⟩
      refine pathTo_link (hp node (List.mem_cons_self _ _)) ?_
      rw [get_edges_successors hg]
      exact (h3 e hew).1

theorem find_path_dfs_sound {g : AdjacencyListGraph V W} {s d : Nat}
    {p : List Nat} (h : find_path_dfs g s d = some p) : IsPath g p s d := by
  unfold find_path_dfs at h
  refine dfsLoop_sound g d (keyUniverse g s) s [] [LinkedNode.root s] _ _
    ?_ p h
  intro n hn
  rcases List.mem_singleton.mp hn with rfl
  exact pathTo_root g s

theorem find_path_bfs_sound {g : AdjacencyListGraph V W} {s d : Nat}
    {p : List Nat} (h : find_path_bfs g s d = some p) : IsPath g p s d := by
  unfold find_path_bfs at h
  refine bfsLoop_sound g d (keyUniverse g s) s [] [LinkedNode.root s] _
    ?_ p h
  intro n hn
  rcases List.mem_singleton.mp hn with rfl
  exact pathTo_root g s

/-- A two-node graph containing a cycle: edges 0→1 and 1→0. -/
def cycleGraph : AdjacencyListGraph Nat NoWeight :=
  let g0 : AdjacencyListGraph Nat NoWeight := new [1, 2]
  let g1 := (add_connection g0 0 1).2
  (add_connection g1 1 0).2

theorem successors_cycleGraph (u : Nat) :
    successors cycleGraph u = [] ∨ successors cycleGraph u = [1] ∨
      successors cycleGraph u = [0] := by
  match u with
  | 0 => exact Or.inr (Or.inl rfl)
  | 1 => exact Or.inr (Or.inr rfl)
  | n + 2 =>
    left
    have hlen : cycleGraph.edges.length = 2 := rfl
    have hnone : cycleGraph.edges[n + 2]? = none :=
      List.getElem?_eq_none (by rw [hlen]; omega)
    simp [successors, get_edges, hnone]

theorem no_path_cycleGraph_0_5 : ¬ ∃ p, IsPath cycleGraph p 0 5 := by
  rintro ⟨p, hp⟩
  have h2 : 2 ≤ p.length := isPath_two_le_length hp (by decide)
  obtain ⟨q, u, -, -, hsucc, -⟩ := isPath_snoc_inv hp h2
  rcases successors_cycleGraph u with h | h | h <;> rw [h] at hsucc <;>
    simp at hsucc

theorem add_connection_appends [Zero W] (g : AdjacencyListGraph V W)
    (k dst : Nat) (ds : List Nat) (h : get_edges g k = some ds) :
    (add_connection g k dst).1 = true ∧
      get_edges (add_connection g k dst).2 k = some (ds ++ [dst]) := by
  unfold get_edges at h
  rcases Option.map_eq_some'.mp h with ⟨l, hl, rfl⟩
  have hk : k < g.edges.length := by
    by_contra hc
    rw [List.getElem?_eq_none (Nat.le_of_not_lt hc)] at hl
    exact Option.noConfusion hl
  unfold add_connection
  rw [hl]
  refine ⟨rfl, ?_⟩
  simp only [get_edges, List.getElem?_set_self (by simpa using hk)]
  simp

/-- C2: `find_path_dfs` pushes a popped node's outgoing edges onto the
stack in reverse stored order (`pushChildren` folds from the right), which
leaves the first-inserted edge's destination on top of the stack, to be
popped and explored first; consequently, on the graph with edges 0→1, 0→2,
0→3, 1→2, 2→3, `find_path_dfs 0 3` returns [0, 1, 2, 3]. -/
theorem dfs_expands_first_edge_first :
    (∀ (node : LinkedNode Nat) (es : List Nat)
        (stack : List (LinkedNode Nat)),
      pushChildren node es stack =
        es.map (fun e => LinkedNode.link e node) ++ stack) ∧
    find_path_dfs testGraph 0 3 = some [0, 1, 2, 3] :=
  ⟨fun node es stack => pushChildren_eq_map_append node es stack,
    find_path_dfs_eval 20 rfl⟩

/-- C3: on any graph (cyclic ones included) with no path from the source
to the destination, both searches terminate — both loops are well-founded
recursions, so they are total — and return `none`. -/
theorem searches_return_none_when_unreachable
    (g : AdjacencyListGraph V W) (s d : Nat)
    (h : ¬ ∃ p, IsPath g p s d) :
    find_path_dfs g s d = none ∧ find_path_bfs g s d = none := by
  constructor
  · cases hr : find_path_dfs g s d with
    | none => rfl
    | some p => exact absurd ⟨p, find_path_dfs_sound hr⟩ h
  · cases hr : find_path_bfs g s d with
    | none => rfl
    | some p => exact absurd ⟨p, find_path_bfs_sound hr⟩ h

theorem searches_return_none_when_unreachable_witness :
    (¬ ∃ p, IsPath cycleGraph p 0 5) ∧
      find_path_dfs cycleGraph 0 5 = none ∧
      find_path_bfs cycleGraph 0 5 = none :=
  ⟨no_path_cycleGraph_0_5,
    searches_return_none_when_unreachable cycleGraph 0 5
      no_path_cycleGraph_0_5⟩

/-- C4: on a well-formed graph, a source key that is not a valid index of
the node store makes `add_connection`, `remove_connection` and
`add_weighted_connection` return `false` and leave the graph unchanged
(with `Nat` keys the `to_usize` conversion always succeeds, so no panic is
possible). -/
theorem invalid_source_mutations_noop [Zero W] (g : AdjacencyListGraph V W)
    (k dst : Nat) (w : W) (hwf : WellFormed g)
    (hk : g.nodes.length ≤ k) :
    add_connection g k dst = (false, g) ∧
      remove_connection g k dst = (false, g) ∧
      add_weighted_connection g k dst w = (false, g) := by
  have hk' : g.edges.length ≤ k := by rw [hwf]; exact hk
  have hnone : g.edges[k]? = none := List.getElem?_eq_none hk'
  refine ⟨?_, ?_, ?_⟩ <;>
    simp [add_connection, remove_connection, add_weighted_connection, hnone]

theorem invalid_source_mutations_noop_witness :
    WellFormed testGraph ∧ testGraph.nodes.length ≤ 999 ∧
      (add_connection testGraph 999 0 = (false, testGraph) ∧
        remove_connection testGraph 999 0 = (false, testGraph) ∧
        add_weighted_connection testGraph 999 0 NoWeight.mk =
          (false, testGraph)) :=
  ⟨by decide, by decide,
    invalid_source_mutations_noop testGraph 999 0 NoWeight.mk
      (by decide) (by decide)⟩

/-- C5: a successful `remove k` returns the value stored at index `k`,
erases both the node and its edge list at `k`, and shifts every node and
edge list previously stored above `k` down by one index, so the key `k`
now reaches the former occupant of `k + 1`. -/
theorem remove_shifts_indices_down (g : AdjacencyListGraph V W) (k : Nat)
    (hk : k < g.nodes.length) :
    (remove g k).1 = some (g.nodes.get ⟨k, hk⟩) ∧
      (remove g k).2.nodes = g.nodes.eraseIdx k ∧
      (remove g k).2.edges = g.edges.eraseIdx k ∧
      (∀ j, k ≤ j → get_value (remove g k).2 j = get_value g (j + 1)) ∧
      (∀ j, k ≤ j → get_edges (remove g k).2 j = get_edges g (j + 1)) := by
  have hlt : ¬ g.nodes.length ≤ k := Nat.not_le.mpr hk
  unfold remove
  rw [if_neg hlt]
  refine ⟨?_, rfl, rfl, ?_, ?_⟩
  · exact List.getElem?_eq_getElem hk
  · intro j hj
    simp only [get_value]
    exact List.getElem?_eraseIdx_of_ge _ _ _ hj
  · intro j hj
    simp only [get_edges]
    rw [List.getElem?_eraseIdx_of_ge _ _ _ hj]

theorem remove_shifts_indices_down_witness :
    0 < testGraph.nodes.length ∧
      (remove testGraph 0).1 = some 1 ∧
      get_value (remove testGraph 0).2 0 = get_value testGraph 1 :=
  ⟨by decide,
    (remove_shifts_indices_down testGraph 0 (by decide)).1,
    (remove_shifts_indices_down testGraph 0 (by decide)).2.2.2.1 0
      (Nat.le_refl 0)⟩

/-- C6: a node's `get_edges` view lists the edge destinations in insertion
order — each `add_connection` appends to the end of the stored list — and
reverse (`next_back`) iteration yields exactly the reversed insertion
order, as on the graph with edges (0→1), (0→2), (0→3). -/
theorem get_edges_insertion_order :
    (∀ (g : AdjacencyListGraph Nat NoWeight) (k dst : Nat) (ds : List Nat),
      get_edges g k = some ds →
      get_edges (add_connection g k dst).2 k = some (ds ++ [dst])) ∧
    get_edges testGraph 0 = some [1, 2, 3] ∧
    (get_edges testGraph 0).map iterate_back = some [3, 2, 1] :=
  ⟨fun g k dst ds h => (add_connection_appends g k dst ds h).2, rfl, rfl⟩

theorem get_edges_insertion_order_witness :
    get_edges danglingGraph 0 = some [99, 1] ∧
      get_edges (add_connection danglingGraph 0 7).2 0 =
        some ([99, 1] ++ [7]) :=
  ⟨rfl, get_edges_insertion_order.1 danglingGraph 0 7 [99, 1] rfl⟩

/-- C7: `insert` always succeeds, returning a fresh key, and `get_value`
at that key immediately returns the inserted value. -/
theorem get_value_insert_roundtrip (g : AdjacencyListGraph V W) (v : V) :
    get_value (insert g v).1 (insert g v).2 = some v := by
  simp only [insert, get_value, List.length_append, List.length_cons,
    List.length_nil, Nat.add_sub_cancel]
  exact List.getElem?_concat_length g.nodes v

/-- C9: the invariant `edges.length = nodes.length` holds for a freshly
constructed graph and is preserved by every mutating operation of the
`Graph` and `WeightedGraph` contracts (the getters do not mutate). -/
theorem edges_nodes_length_invariant [Zero W] :
    (∀ ns : List V, WellFormed (new ns : AdjacencyListGraph V W)) ∧
    (∀ (g : AdjacencyListGraph V W) (v : V),
      WellFormed g → WellFormed (insert g v).1) ∧
    (∀ (g : AdjacencyListGraph V W) (k : Nat),
      WellFormed g → WellFormed (remove g k).2) ∧
    (∀ (g : AdjacencyListGraph V W) (s dst : Nat),
      WellFormed g → WellFormed (add_connection g s dst).2) ∧
    (∀ (g : AdjacencyListGraph V W) (s dst : Nat),
      WellFormed g → WellFormed (remove_connection g s dst).2) ∧
    (∀ (g : AdjacencyListGraph V W) (s dst : Nat) (w : W),
      WellFormed g → WellFormed (add_weighted_connection g s dst w).2) := by
  refine ⟨?_, ?_, ?_, ?_, ?_, ?_⟩
  · intro ns
    simp [new, WellFormed]
  · intro g v hwf
    simp only [WellFormed, insert, List.length_append, List.length_cons,
      List.length_nil] at hwf ⊢
    omega
  · intro g k hwf
    unfold remove
    split
    · exact hwf
    · rename_i hc
      simp only [WellFormed, List.length_eraseIdx] at hwf ⊢
      rw [hwf]
  · intro g s dst hwf
    unfold add_connection
    split
    · exact hwf
    · simpa [WellFormed] using hwf
  · intro g s dst hwf
    unfold remove_connection
    split
    · exact hwf
    · split
      · exact hwf
      · simpa [WellFormed] using hwf
  · intro g s dst w hwf
    unfold add_weighted_connection
    split
    · exact hwf
    · simpa [WellFormed] using hwf

theorem edges_nodes_length_invariant_witness :
    WellFormed (new [7, 8] : AdjacencyListGraph Nat NoWeight) ∧
      WellFormed (insert testGraph 9).1 ∧
      WellFormed (remove testGraph 1).2 ∧
      WellFormed (add_connection testGraph 1 7).2 ∧
      WellFormed (remove_connection testGraph 0 2).2 ∧
      WellFormed (add_weighted_connection testGraph 0 9 NoWeight.mk).2 :=
  ⟨edges_nodes_length_invariant.1 [7, 8],
    edges_nodes_length_invariant.2.1 testGraph 9 (by decide),
    edges_nodes_length_invariant.2.2.1 testGraph 1 (by decide),
    edges_nodes_length_invariant.2.2.2.1 testGraph 1 7 (by decide),
    edges_nodes_length_invariant.2.2.2.2.1 testGraph 0 2 (by decide),
    edges_nodes_length_invariant.2.2.2.2.2 testGraph 0 9 NoWeight.mk
      (by decide)⟩

/-- C8: `add_connection` never validates the destination: on any valid
source it returns `true` and appends the edge, whatever the destination
key; and both searches tolerate a dangling edge (to the dead key 99),
treating it as a candidate that fails to expand without aborting the
search. -/
theorem dangling_destinations_tolerated :
    (∀ (g : AdjacencyListGraph Nat NoWeight) (k dst : Nat) (ds : List Nat),
      get_edges g k = some ds →
      (add_connection g k dst).1 = true ∧
        get_edges (add_connection g k dst).2 k = some (ds ++ [dst])) ∧
    get_edges danglingGraph 99 = none ∧
    find_path_dfs danglingGraph 0 1 = some [0, 1] ∧
    find_path_bfs danglingGraph 0 1 = some [0, 1] :=
  ⟨fun g k dst ds h => add_connection_appends g k dst ds h, rfl,
    find_path_dfs_eval 20 rfl, find_path_bfs_eval 20 rfl⟩

theorem dangling_destinations_tolerated_witness :
    (add_connection danglingGraph 0 424242).1 = true ∧
      get_edges (add_connection danglingGraph 0 424242).2 0 =
        some ([99, 1] ++ [424242]) :=
  dangling_destinations_tolerated.1 danglingGraph 0 424242 [99, 1] rfl

/-- `m` is a lower bound on the node count of every path from `s` to `k`. -/
def MinTo (g : AdjacencyListGraph V W) (s k m : Nat) : Prop :=
  ∀ p, IsPath g p s k → m ≤ p.length

theorem minTo_two (g : AdjacencyListGraph V W) {s k : Nat} (h : k ≠ s) :
    MinTo g s k 2 :=
  fun _ hp => isPath_two_le_length hp (fun hh => h hh.symm)

/-- The steady-state invariant of the BFS loop, holding from the moment
the source has been expanded: every queued chain is a path from `s`, every
queued chain of key other than `s` is a shortest path to its key, all
successors of `s` are marked, marked keys are either still queued or fully
expanded, and the queue consists of a level of depth `D` followed by a
level of depth `D + 1`, with every unmarked key other than `s` at distance
at least `D + 1` from `s`. -/
structure BfsSteady (g : AdjacencyListGraph V W) (s d : Nat)
    (visited : List Nat) (queue : List (LinkedNode Nat)) : Prop where
  ne_sd : s ≠ d
  paths : ∀ n ∈ queue, PathTo g s n
  mins : ∀ n ∈ queue, n.value ≠ s → MinTo g s n.value n.chainLength
  src_closed : ∀ x ∈ successors g s, x ∈ visited
  expanded : ∀ u ∈ visited, u ∈ queue.map LinkedNode.value ∨
    ∀ x ∈ successors g u, x ∈ visited
  level : ∃ D A B, queue = A ++ B ∧ (A = [] → B = []) ∧
    (∀ n ∈ A, n.chainLength = D + 1) ∧
    (∀ n ∈ B, n.chainLength = D + 2) ∧
    (∀ k, k ∉ visited → k ≠ s → MinTo g s k (D + 2))

/-- When every key of distance up to `D + 1` from `s` is marked and every
queued chain is at depth at least `D + 1` and optimal, unmarked keys are
at distance at least `D + 2`: the last edge of a shorter path would have
to leave a fully expanded key. -/
theorem unseen_bound_step (g : AdjacencyListGraph V W) (s : Nat)
    (visited : List Nat) (queue : List (LinkedNode Nat)) (D : Nat)
    (hS6 : ∀ x ∈ successors g s, x ∈ visited)
    (hS7 : ∀ u ∈ visited, u ∈ queue.map LinkedNode.value ∨
      ∀ x ∈ successors g u, x ∈ visited)
    (hmin : ∀ n ∈ queue, n.value ≠ s → MinTo g s n.value n.chainLength)
    (hchain : ∀ n ∈ queue, D + 2 ≤ n.chainLength)
    (hold : ∀ k, k ∉ visited → k ≠ s → MinTo g s k (D + 2)) :
    ∀ k, k ∉ visited → k ≠ s → MinTo g s k (D + 3) := by
  intro k hkv hks p hp
  by_contra hc
  have hge : D + 2 ≤ p.length := hold k hkv hks p hp
  have hlen : p.length = D + 2 := by omega
  obtain ⟨q, u, hpq, hq, hsucc, hqlen⟩ := isPath_snoc_inv hp (by omega)
  have hqlen' : q.length = D + 1 := by omega
  by_cases hus : u = s
  · subst hus
    exact hkv (hS6 k hsucc)
  · by_cases huv : u ∈ visited
    · rcases hS7 u huv with h1 | h2
      · rcases List.mem_map.mp h1 with ⟨n, hn, hnv⟩
        have hm := hmin n hn (by rw [hnv]; exact hus) q (by rw [hnv]; exact hq)
        have hcl := hchain n hn
        omega
      · exact hkv (h2 k hsucc)
    · have := hold u huv hus q hq
      omega

theorem map_value_children (node : LinkedNode Nat) (w : List Nat) :
    (w.map (fun e => LinkedNode.link e node)).map LinkedNode.value = w := by
  rw [List.map_map]
  exact List.map_id'' (fun x => rfl) w

/-- Popping a chain node whose key has no edge list preserves the steady
invariant. -/
theorem bfsSteady_deadend {g : AdjacencyListGraph V W} {s d : Nat}
    {visited : List Nat} {node : LinkedNode Nat}
    {rest : List (LinkedNode Nat)}
    (h : BfsSteady g s d visited (node :: rest))
    (hg : get_edges g node.value = none) :
    BfsSteady g s d visited rest := by
  obtain ⟨D, A, B, hq, himp, hA, hB, hS4⟩ := h.level
  cases A with
  | nil =>
    rw [himp rfl] at hq
    exact absurd hq (by simp)
  | cons a A' =>
    rw [List.cons_append] at hq
    injection hq with ha hrest
    subst ha
    subst hrest
    have hexp : ∀ u ∈ visited, u ∈ (A' ++ B).map LinkedNode.value ∨
        ∀ x ∈ successors g u, x ∈ visited := by
      intro u hu
      rcases h.expanded u hu with h1 | h2
      · rw [List.map_cons] at h1
        rcases List.mem_cons.mp h1 with rfl | h1'
        · right
          intro x hx
          rw [get_edges_none_successors hg] at hx
          exact absurd hx (List.not_mem_nil x)
        · exact Or.inl h1'
      · exact Or.inr h2
    refine ⟨h.ne_sd, fun n hn => h.paths n (List.mem_cons_of_mem _ hn),
      fun n hn => h.mins n (List.mem_cons_of_mem _ hn), h.src_closed,
      hexp, ?_⟩
    by_cases hA' : A' = []
    · subst hA'
      by_cases hB' : B = []
      · subst hB'
        exact ⟨0, [], [], rfl, fun _ => rfl, by simp, by simp,
          fun k _ hks => minTo_two g hks⟩
      · refine ⟨D + 1, B, [], by simp, fun hh => absurd hh hB', ?_, by simp,
          ?_⟩
        · intro n hn
          rw [hB n hn]
        · refine unseen_bound_step g s visited B D h.src_closed ?_ ?_ ?_ hS4
          · simpa using hexp
          · intro n hn
            exact h.mins n (List.mem_cons_of_mem _ (by simpa using hn))
          · intro n hn
            rw [hB n hn]
    · refine ⟨D, A', B, rfl, fun hh => absurd hh hA',
        fun n hn => hA n (List.mem_cons_of_mem _ hn), hB, hS4⟩

/-- Expanding a popped chain node through the BFS edge loop preserves the
steady invariant. -/
theorem bfsSteady_expand {g : AdjacencyListGraph V W} {s d : Nat}
    {visited : List Nat} {node : LinkedNode Nat}
    {rest : List (LinkedNode Nat)} {es : List Nat}
    (h : BfsSteady g s d visited (node :: rest))
    (hg : get_edges g node.value = some es) :
    BfsSteady g s d (bfsEnqueue node es visited rest).1
      (bfsEnqueue node es visited rest).2 := by
  obtain ⟨w, h1, h2, h3, h4⟩ := bfsEnqueue_spec node es visited rest
  rw [h1, h2]
  obtain ⟨D, A, B, hq, himp, hA, hB, hS4⟩ := h.level
  cases A with
  | nil =>
    rw [himp rfl] at hq
    exact absurd hq (by simp)
  | cons a A' =>
    rw [List.cons_append] at hq
    injection hq with ha hrest
    subst ha
    subst hrest
    have hnode : node.chainLength = D + 1 := hA node (List.mem_cons_self _ _)
    have hchph : ∀ n ∈ w.map (fun e => LinkedNode.link e node),
        n.chainLength = D + 2 := by
      intro n hn
      rcases List.mem_map.mp hn with ⟨e, hew, rfl⟩
      rw [chainLength_link, hnode]
    have hpaths : ∀ n ∈ (A' ++ B) ++ w.map (fun e => LinkedNode.link e node),
        PathTo g s n := by
      intro n hn
      rcases List.mem_append.mp hn with hn1 | hn2
      · exact h.paths n (List.mem_cons_of_mem _ hn1)
      · rcases List.mem_map.mp hn2 with ⟨e, hew, rfl⟩
        refine pathTo_link (h.paths node (List.mem_cons_self _ _)) ?_
        rw [get_edges_successors hg]
        exact (h3 e hew).1
    have hmins : ∀ n ∈ (A' ++ B) ++ w.map (fun e => LinkedNode.link e node),
        n.value ≠ s → MinTo g s n.value n.chainLength := by
      intro n hn hns
      rcases List.mem_append.mp hn with hn1 | hn2
      · exact h.mins n (List.mem_cons_of_mem _ hn1) hns
      · rcases List.mem_map.mp hn2 with ⟨e, hew, rfl⟩
        have hev : (LinkedNode.link e node).value = e := rfl
        rw [hev] at hns ⊢
        rw [chainLength_link, hnode]
        exact hS4 e (h3 e hew).2 hns
    have hsrc : ∀ x ∈ successors g s, x ∈ visited ++ w :=
      fun x hx => List.mem_append_left _ (h.src_closed x hx)
    have hexp : ∀ u ∈ visited ++ w,
        u ∈ ((A' ++ B) ++ w.map (fun e => LinkedNode.link e node)).map
          LinkedNode.value ∨
        ∀ x ∈ successors g u, x ∈ visited ++ w := by
      intro u hu
      rcases List.mem_append.mp hu with hu1 | hu2
      · rcases h.expanded u hu1 with hq1 | hq2
        · rw [List.map_cons] at hq1
          rcases List.mem_cons.mp hq1 with rfl | hq1'
          · right
            intro x hx
            rw [get_edges_successors hg] at hx
            exact h4 x hx
          · left
            rw [List.map_append]
            exact List.mem_append_left _ hq1'
        · exact Or.inr fun x hx => List.mem_append_left _ (hq2 x hx)
      · left
        rw [List.map_append, map_value_children]
        exact List.mem_append_right _ hu2
    have hS4' : ∀ k, k ∉ visited ++ w → k ≠ s → MinTo g s k (D + 2) := by
      intro k hk hks
      exact hS4 k (fun hc => hk (List.mem_append_left _ hc)) hks
    refine ⟨h.ne_sd, hpaths, hmins, hsrc, hexp, ?_⟩
    by_cases hA' : A' = []
    · subst hA'
      by_cases hBC : B ++ w.map (fun e => LinkedNode.link e node) = []
      · exact ⟨0, [], [], by simpa using hBC, fun _ => rfl, by simp, by simp,
          fun k _ hks => minTo_two g hks⟩
      · refine ⟨D + 1, B ++ w.map (fun e => LinkedNode.link e node), [],
          by simp, fun _ => rfl, ?_, by simp, ?_⟩
        · intro n hn
          rcases List.mem_append.mp hn with hn1 | hn2
          · rw [hB n hn1]
          · rw [hchph n hn2]
        · refine unseen_bound_step g s (visited ++ w)
            (B ++ w.map (fun e => LinkedNode.link e node)) D hsrc ?_ ?_ ?_
            hS4'
          · simpa using hexp
          · simpa using hmins
          · intro n hn
            rcases List.mem_append.mp hn with hn1 | hn2
            · rw [hB n hn1]
            · rw [hchph n hn2]
    · refine ⟨D, A', B ++ w.map (fun e => LinkedNode.link e node),
        (List.append_assoc _ _ _), fun hh => absurd hh hA',
        fun n hn => hA n (List.mem_cons_of_mem _ hn), ?_, hS4'⟩
      intro n hn
      rcases List.mem_append.mp hn with hn1 | hn2
      · rw [hB n hn1]
      · rw [hchph n hn2]

/-- If the source has no edge list, popping it leaves the empty steady
state. -/
theorem bfsSteady_initial_deadend {g : AdjacencyListGraph V W} {s d : Nat}
    (hne : s ≠ d) (hg : get_edges g s = none) :
    BfsSteady g s d [] ([] : List (LinkedNode Nat)) := by
  refine ⟨hne, by simp, by simp, ?_, by simp, 0, [], [], rfl, fun _ => rfl,
    by simp, by simp, fun k _ hks => minTo_two g hks⟩
  intro x hx
  rw [get_edges_none_successors hg] at hx
  exact absurd hx (List.not_mem_nil x)

/-- Popping and expanding the seed chain node establishes the steady
invariant. -/
theorem bfsSteady_initial_expand {g : AdjacencyListGraph V W} {s d : Nat}
    {es : List Nat} (hne : s ≠ d) (hg : get_edges g s = some es) :
    BfsSteady g s d (bfsEnqueue (LinkedNode.root s) es [] []).1
      (bfsEnqueue (LinkedNode.root s) es [] []).2 := by
  obtain ⟨w, h1, h2, h3, h4⟩ := bfsEnqueue_spec (LinkedNode.root s) es [] []
  rw [h1, h2]
  rw [List.nil_append] at *
  have hgs : get_edges g (LinkedNode.root s).value = some es := hg
  have hchph : ∀ n ∈ w.map (fun e => LinkedNode.link e (LinkedNode.root s)),
      n.chainLength = 2 := by
    intro n hn
    rcases List.mem_map.mp hn with ⟨e, hew, rfl⟩
    rw [chainLength_link]
    rfl
  have hpaths : ∀ n ∈ w.map (fun e => LinkedNode.link e (LinkedNode.root s)),
      PathTo g s n := by
    intro n hn
    rcases List.mem_map.mp hn with ⟨e, hew, rfl⟩
    refine pathTo_link (pathTo_root g s) ?_
    show e ∈ successors g s
    rw [get_edges_successors hg]
    exact (h3 e hew).1
  have hmins : ∀ n ∈ w.map (fun e => LinkedNode.link e (LinkedNode.root s)),
      n.value ≠ s → MinTo g s n.value n.chainLength := by
    intro n hn hns
    rcases List.mem_map.mp hn with ⟨e, hew, rfl⟩
    rw [chainLength_link]
    exact minTo_two g hns
  have hsrc : ∀ x ∈ successors g s, x ∈ w := by
    intro x hx
    rw [get_edges_successors hg] at hx
    exact h4 x hx
  have hexp : ∀ u ∈ w,
      u ∈ (w.map (fun e => LinkedNode.link e (LinkedNode.root s))).map
        LinkedNode.value ∨ ∀ x ∈ successors g u, x ∈ w := by
    intro u hu
    left
    rw [map_value_children]
    exact hu
  refine ⟨hne, hpaths, hmins, hsrc, hexp,
    1, w.map (fun e => LinkedNode.link e (LinkedNode.root s)), [],
    by simp, fun _ => rfl, fun n hn => hchph n hn, by simp, ?_⟩
  have := unseen_bound_step g s w
    (w.map (fun e => LinkedNode.link e (LinkedNode.root s))) 0 hsrc hexp
    hmins (fun n hn => Nat.le_of_eq (hchph n hn).symm)
    (fun k _ hks => minTo_two g hks)
  exact this

/-- Minimality of the BFS loop from a steady state: a returned path is no
longer than any path from the source to the destination. -/
theorem bfsLoop_shortest (g : AdjacencyListGraph V W) (s d : Nat)
    (U : List Nat) :
    ∀ visited queue he, BfsSteady g s d visited queue →
      ∀ p, bfsLoop g d U visited queue he = some p →
        MinTo g s d p.length := by
  intro visited queue he
  induction visited, queue, he using bfsLoop.induct g d U with
  | case1 visited he' =>
    intro _ p hr
    rw [bfsLoop_nil] at hr
    exact Option.noConfusion hr
  | case2 visited he' node rest hd =>
    intro hst p hr
    rw [bfsLoop_found he' hd] at hr
    cases hr
    have hns : node.value ≠ s := by
      rw [hd]
      exact fun hh => hst.ne_sd hh.symm
    have hm := hst.mins node (List.mem_cons_self _ _) hns
    rw [← hd, ← chainLength_eq_length_flatten]
    exact hm
  | case3 visited he' node rest hd hg ih =>
    intro hst p hr
    rw [bfsLoop_deadend he' hd hg] at hr
    exact ih (bfsSteady_deadend hst hg) p hr
  | case4 visited he' node rest hd es hg ih =>
    intro hst p hr
    rw [bfsLoop_expand he' hd hg] at hr
    exact ih (bfsSteady_expand hst hg) p hr

/-- `find_path_bfs` only returns shortest (fewest-edge) paths. -/
theorem find_path_bfs_shortest {g : AdjacencyListGraph V W} {s d : Nat}
    {p : List Nat} (h : find_path_bfs g s d = some p) :
    IsPath g p s d ∧ ∀ q, IsPath g q s d → p.length ≤ q.length := by
  refine ⟨find_path_bfs_sound h, ?_⟩
  unfold find_path_bfs at h
  by_cases hsd : s = d
  · subst hsd
    rw [@bfsLoop_found V W g s (keyUniverse g s) [] (LinkedNode.root s) []
      _ rfl] at h
    cases Option.some.inj h
    intro q hq
    exact isPath_one_le_length hq
  · have hsd' : (LinkedNode.root s).value ≠ d := hsd
    cases hg : get_edges g s with
    | none =>
      rw [bfsLoop_deadend _ hsd'
        (show get_edges g (LinkedNode.root s).value = none from hg)] at h
      rw [bfsLoop_nil] at h
      exact Option.noConfusion h
    | some es =>
      rw [bfsLoop_expand _ hsd'
        (show get_edges g (LinkedNode.root s).value = some es from hg)] at h
      intro q hq
      exact bfsLoop_shortest g s d (keyUniverse g s) _ _ _
        (bfsSteady_initial_expand hsd hg) p h q hq

/-- C1: whenever `find_path_bfs` returns a path, that path is a path of
the graph with the fewest edges (fewest nodes) of any path from the source
to the destination; in particular, on the graph with edges 0→1, 0→2, 0→3,
1→2, 2→3 it returns exactly [0, 3]. -/
theorem bfs_returns_shortest_path :
    (∀ (V W : Type) (g : AdjacencyListGraph V W) (s d : Nat) (p : List Nat),
      find_path_bfs g s d = some p →
      IsPath g p s d ∧ ∀ q, IsPath g q s d → p.length ≤ q.length) ∧
    find_path_bfs testGraph 0 3 = some [0, 3] :=
  ⟨fun _ _ _ _ _ _ h => find_path_bfs_shortest h, find_path_bfs_eval 20 rfl⟩

theorem bfs_returns_shortest_path_witness :
    IsPath testGraph [0, 3] 0 3 ∧
      [0, 3].length ≤ [0, 1, 2, 3].length :=
  ⟨(bfs_returns_shortest_path.1 Nat NoWeight testGraph 0 3 [0, 3]
      bfs_returns_shortest_path.2).1,
    (bfs_returns_shortest_path.1 Nat NoWeight testGraph 0 3 [0, 3]
      bfs_returns_shortest_path.2).2 [0, 1, 2, 3] (by decide)⟩

/-- C10: for every key, valid or not, both searches immediately report the
zero-length path `[k]` from `k` to itself: the destination test precedes
any validation or expansion of the key. -/
theorem find_path_self_reflexive (g : AdjacencyListGraph V W) (k : Nat) :
    find_path_dfs g k k = some [k] ∧ find_path_bfs g k k = some [k] := by
  constructor
  · unfold find_path_dfs
    exact (@dfsLoop_found V W g k (keyUniverse g k) [] (LinkedNode.root k)
      [] _ _ (List.not_mem_nil _) rfl).trans rfl
  · unfold find_path_bfs
    exact (@bfsLoop_found V W g k (keyUniverse g k) [] (LinkedNode.root k)
      [] _ rfl).trans rfl

end RustGraph
